import Mathlib

/-!
Shallow embedding of the missing-value imputation and row-removal engine of
the `unified-data-store.ts` Zustand store (src/src/store/unified-data-store.ts).

Cells are JavaScript values restricted to the shapes the table pipeline
produces: strings, finite numbers, `null`, `undefined` and booleans.  Numbers
are modelled as exact rationals; JavaScript string/number conversions
(`Number(...)`, `String(...)`, `trim`, `toLowerCase`) are modelled by
structurally recursive functions over the character lists so that closed
instances evaluate inside the kernel.
-/

namespace UDS

/-- A JavaScript value as it can appear in a table cell. -/
inductive Cell where
  | str (s : String)
  | num (q : ℚ)
  | nullV
  | undefV
  | boolV (b : Bool)
deriving DecidableEq

/-- The optional `value` field of a column setting (`value?: string | number`). -/
inductive SettingValue where
  | str (s : String)
  | num (q : ℚ)
deriving DecidableEq

/-- One per-column cleaning directive `{ strategy, value? }`. -/
structure ColumnSetting where
  strategy : String
  value : Option SettingValue
deriving DecidableEq

/-- A parsed table: ordered headers plus positional rows. -/
structure Table where
  headers : List String
  rows : List (List Cell)
deriving DecidableEq

/-- Whitespace for the purposes of `String.prototype.trim` (ASCII fragment). -/
def isJsWhitespace (c : Char) : Bool :=
  c = ' ' || c = '\t' || c = '\n' || c = '\r' || c = '\x0b' || c = '\x0c'

/-- Trim leading and trailing whitespace from a character list. -/
def trimChars (cs : List Char) : List Char :=
  ((cs.dropWhile isJsWhitespace).reverse.dropWhile isJsWhitespace).reverse

/-- Model of `String.prototype.trim`. -/
def jsTrim (s : String) : String := String.mk (trimChars s.data)

/-- ASCII lower-casing of one character. -/
def charToLowerAscii (c : Char) : Char :=
  if 'A' ≤ c && c ≤ 'Z' then Char.ofNat (c.toNat + 32) else c

/-- Model of `String.prototype.toLowerCase` (ASCII fragment). -/
def jsToLower (s : String) : String := String.mk (s.data.map charToLowerAscii)

/-- Split a character list at every occurrence of `sep`. -/
def splitOnChar (sep : Char) : List Char → List (List Char)
  | [] => [[]]
  | c :: rest =>
    match splitOnChar sep rest with
    | [] => [[]]
    | w :: ws => if c = sep then [] :: w :: ws else (c :: w) :: ws

/-- Whether every character is a decimal digit. -/
def allDigits (cs : List Char) : Bool := cs.all Char.isDigit

/-- The natural number denoted by a list of decimal digits. -/
def natOfDigits (cs : List Char) : Nat :=
  cs.foldl (fun n c => 10 * n + (c.toNat - 48)) 0

/-- Parse the mantissa part of a decimal numeral: `digits`, `digits.digits`,
`.digits` or `digits.`. -/
def parseMantissa (cs : List Char) : Option ℚ :=
  match splitOnChar '.' cs with
  | [ip] => if ip ≠ [] && allDigits ip then some (natOfDigits ip : ℚ) else none
  | [ip, fp] =>
      if (ip ≠ [] || fp ≠ []) && allDigits ip && allDigits fp then
        some ((natOfDigits ip : ℚ) + (natOfDigits fp : ℚ) / (10 : ℚ) ^ fp.length)
      else none
  | _ => none

/-- Parse an exponent part: optional sign followed by digits. -/
def parseExponentPart (cs : List Char) : Option ℤ :=
  match cs with
  | '+' :: rest => if rest ≠ [] && allDigits rest then some (natOfDigits rest : ℤ) else none
  | '-' :: rest => if rest ≠ [] && allDigits rest then some (-(natOfDigits rest : ℤ)) else none
  | _ => if cs ≠ [] && allDigits cs then some (natOfDigits cs : ℤ) else none

/-- Parse an unsigned decimal numeral with optional exponent (`1.5e-3`). -/
def parseUnsignedNumber (cs : List Char) : Option ℚ :=
  match splitOnChar 'e' (cs.map charToLowerAscii) with
  | [m] => parseMantissa m
  | [m, e] =>
      match parseMantissa m, parseExponentPart e with
      | some q, some k => some (q * (10 : ℚ) ^ k)
      | _, _ => none
  | _ => none

/-- Model of JavaScript `Number(s)` on a string: `none` stands for `NaN`.
A trimmed-empty string converts to `0`; decimal numerals (with optional sign,
fraction and exponent) convert to their value; everything else is `NaN`.
(The exotic `Infinity`/hex/binary literal forms are outside the model.) -/
def parseJsNumber (s : String) : Option ℚ :=
  let t := trimChars s.data
  if t = [] then some 0
  else
    match t with
    | '+' :: rest => parseUnsignedNumber rest
    | '-' :: rest => (parseUnsignedNumber rest).map (fun q => -q)
    | _ => parseUnsignedNumber t

/-- Model of JavaScript `Number(cell)`: `none` stands for `NaN`. -/
def jsToNumber : Cell → Option ℚ
  | .num q => some q
  | .str s => parseJsNumber s
  | .nullV => some 0
  | .undefV => none
  | .boolV b => some (if b then 1 else 0)

/-- Decimal digit characters of a natural number (fuel-driven so that it
reduces structurally). -/
def natDigitsAux : Nat → Nat → List Char
  | 0, _ => []
  | fuel + 1, n =>
      if n = 0 then [] else natDigitsAux fuel (n / 10) ++ [Char.ofNat (48 + n % 10)]

/-- Decimal representation of a natural number. -/
def natRepr (n : Nat) : String :=
  if n = 0 then "0" else String.mk (natDigitsAux (n + 1) n)

/-- Decimal representation of an integer. -/
def intRepr (i : ℤ) : String :=
  if i < 0 then String.mk ('-' :: (natRepr i.natAbs).data) else natRepr i.natAbs

/-- Left-pad the decimal representation of `n` with zeros to `k` digits. -/
def fracDigits (n : Nat) (k : Nat) : String :=
  let s := natRepr n
  String.mk (List.replicate (k - s.data.length) '0' ++ s.data)

/-- Model of JavaScript number-to-string conversion on exact rationals:
integers print as decimal integers, terminating decimal fractions print with
a `.` and no trailing zeros (matching `String(0.25) = "0.25"`); rationals
without a short terminating expansion (unreachable from double-precision
inputs) fall back to a fraction notation. -/
def ratToString (q : ℚ) : String :=
  if q.den = 1 then intRepr q.num
  else
    match (List.range 64).find? (fun k => (q * (10 : ℚ) ^ k).den = 1) with
    | some k =>
        let sgn := if q < 0 then "-" else ""
        let scaled := (|q| * (10 : ℚ) ^ k).num.toNat
        sgn ++ natRepr (scaled / 10 ^ k) ++ "." ++ fracDigits (scaled % 10 ^ k) k
    | none => intRepr q.num ++ "/" ++ natRepr q.den

/-- Model of JavaScript `String(cell)`. -/
def jsToString : Cell → String
  | .str s => s
  | .num q => ratToString q
  | .nullV => "null"
  | .undefV => "undefined"
  | .boolV b => if b then "true" else "false"

/-- The `value` of a column setting viewed as a cell (`string | number`). -/
def svToCell : SettingValue → Cell
  | .str s => .str s
  | .num q => .num q

/-- The fixed missing-value sentinel vocabulary of the store. -/
def missingSentinels : List String := ["na", "n/a", "null", "-", "nan"]

/-- The missing-cell classifier `isCellMissing` of `processMissingValues`:
`null`, `undefined`, the empty string, whitespace-only strings, and strings
whose trimmed lower-cased form is one of the sentinels are missing. -/
def isCellMissing : Cell → Bool
  | .nullV => true
  | .undefV => true
  | .str s =>
      s == "" || jsTrim s == "" ||
        missingSentinels.contains (jsToLower (jsTrim s))
  | .num _ => false
  | .boolV _ => false

/-- Stable insertion into an already sorted accumulator: the new element is
placed after every element `y` with `le y x`, matching the placement a stable
sort gives to later-arriving elements. -/
def insertLe (le : α → α → Bool) (x : α) : List α → List α
  | [] => [x]
  | y :: ys => if le y x then y :: insertLe le x ys else x :: y :: ys

/-- Model of `Array.prototype.sort` with comparator-induced order `le`
(`le a b` = comparator does not require `b` before `a`): a stable sort,
implemented as left-to-right insertion. -/
def jsSortBy (le : α → α → Bool) (l : List α) : List α :=
  l.foldl (fun acc x => insertLe le x acc) []

/-- Reading `row[i]` in JavaScript: out-of-range reads give `undefined`. -/
def cellAt (row : List Cell) (i : Nat) : Cell := (row[i]?).getD .undefV

/-- Writing `row[i] = v` in JavaScript: out-of-range writes extend the array,
with the intermediate holes reading back as `undefined`. -/
def setCellJs (row : List Cell) (i : Nat) (v : Cell) : List Cell :=
  if i < row.length then row.set i v
  else row ++ List.replicate (i - row.length) Cell.undefV ++ [v]

/-- Reading cell `(i, j)` of a table (`undefined` when out of range). -/
def cellAt2 (t : Table) (i j : Nat) : Cell := cellAt ((t.rows[i]?).getD []) j

/-- Model of `Array.prototype.indexOf` on the header list (first match). -/
def indexOfAux (headers : List String) (col : String) : Option Nat :=
  match headers with
  | [] => none
  | h :: rest => if h = col then some 0 else (indexOfAux rest col).map (fun i => i + 1)

/-- The statistic calculator of `processMissingValues`: `mean`, `median`
(sort ascending, middle element or average of the two middle elements),
`min`, `max`, and `0` for any other method string. -/
def calculateStatistic (values : List ℚ) (method : String) : ℚ :=
  if method = "mean" then (values.foldl (fun a b => a + b) 0) / values.length
  else if method = "median" then
    let sorted := jsSortBy (fun a b => decide (a ≤ b)) values
    let mid := sorted.length / 2
    if sorted.length % 2 = 1 then (sorted[mid]?).getD 0
    else (((sorted[mid - 1]?).getD 0) + ((sorted[mid]?).getD 0)) / 2
  else if method = "min" then
    match values with
    | [] => 0
    | x :: xs => xs.foldl min x
  else if method = "max" then
    match values with
    | [] => 0
    | x :: xs => xs.foldl max x
  else 0

/-- Increment the count of `k` in an association-list frequency table,
appending a fresh key at the end (JavaScript property insertion order). -/
def bumpFreq : List (String × Nat) → String → List (String × Nat)
  | [], k => [(k, 1)]
  | (k2, n) :: rest, k =>
      if k2 = k then (k2, n + 1) :: rest else (k2, n) :: bumpFreq rest k

/-- The frequency table of `calculateMode`, keyed by `String(val)`, in
property insertion order. -/
def freqTable (values : List Cell) : List (String × Nat) :=
  values.foldl (fun acc v => bumpFreq acc (jsToString v)) []

/-- Whether a string is a canonical array-index property key (a decimal
numeral without leading zeros, below `2^32 - 1`); such keys are enumerated
first and in ascending numeric order by `Object.entries`. -/
def isArrayIndexKey (s : String) : Bool :=
  let cs := s.data
  cs ≠ [] && allDigits cs && (cs = ['0'] || cs.head? ≠ some '0') &&
    natOfDigits cs < 4294967295

/-- Model of `Object.entries` enumeration order on the frequency table:
array-index keys ascending first, then the remaining keys in insertion
order. -/
def objectEntries (l : List (String × Nat)) : List (String × Nat) :=
  jsSortBy (fun a b => decide (natOfDigits a.1.data ≤ natOfDigits b.1.data))
      (l.filter (fun p => isArrayIndexKey p.1)) ++
    l.filter (fun p => !isArrayIndexKey p.1)

/-- The mode calculator of `processMissingValues`: sort the entries of the
frequency table by descending count (stably), take the first entry, and
return its key converted back to a number when `Number(key)` is not `NaN`. -/
def calculateMode (values : List Cell) : Cell :=
  let entries := objectEntries (freqTable values)
  let sorted := jsSortBy (fun a b => decide (b.2 ≤ a.2)) entries
  match sorted.head? with
  | none => .str ""
  | some (k, _) =>
      match parseJsNumber k with
      | some q => .num q
      | none => .str k

/-- The `drop` threshold: `Number(columnSetting.value) || 50`, so any value
whose numeric coercion is `NaN` or `0` falls back to `50`. -/
def dropThreshold (v : Option SettingValue) : ℚ :=
  match (match v with | some sv => jsToNumber (svToCell sv) | none => none) with
  | none => 50
  | some q => if q = 0 then 50 else q

/-- The `fill-value` replacement: `columnSetting.value ?? ""` coerced to a
number when `Number(rawValue)` is not `NaN`, otherwise kept as given. -/
def fillValue (v : Option SettingValue) : Cell :=
  let rawValue : Cell := match v with | some sv => svToCell sv | none => .str ""
  match jsToNumber rawValue with
  | some q => .num q
  | none => rawValue

/-- The `fill-method` method name: `String(columnSetting.value || "mode")`
(the `||` makes an absent, empty-string or numerically-zero value fall back
to `"mode"`). -/
def fillMethodOf (v : Option SettingValue) : String :=
  match v with
  | some (.str s) => if s = "" then "mode" else s
  | some (.num q) => if q = 0 then "mode" else ratToString q
  | none => "mode"

/-- The missing percentage of column `ci` over the current working table:
`missingCount / totalRows * 100` guarded by `totalRows > 0`. -/
def missingPct (t : Table) (ci : Nat) : ℚ :=
  let missingCount := (t.rows.filter (fun r => isCellMissing (cellAt r ci))).length
  let totalRows := t.rows.length
  if 0 < totalRows then (missingCount : ℚ) / (totalRows : ℚ) * 100 else 0

/-- One iteration of the per-column loop of `processMissingValues`: resolve
the column in the working table's headers (skip silently when absent), then
apply the entry's strategy.  The missing count computed by the source outside
the `drop` branch only feeds `console.log` and is value-irrelevant. -/
def processColumn (t : Table) (column : String) (cs : ColumnSetting) : Table :=
  match indexOfAux t.headers column with
  | none => t
  | some ci =>
    if cs.strategy = "drop" then
      if missingPct t ci ≤ dropThreshold cs.value then
        { t with rows := t.rows.filter (fun r => !isCellMissing (cellAt r ci)) }
      else t
    else if cs.strategy = "fill-value" then
      { t with rows := t.rows.map (fun r =>
          if isCellMissing (cellAt r ci) then setCellJs r ci (fillValue cs.value) else r) }
    else if cs.strategy = "fill-method" then
      let method := fillMethodOf cs.value
      let nonMissingValues := t.rows.filterMap (fun r =>
        if isCellMissing (cellAt r ci) then none else some (cellAt r ci))
      let numericValues := nonMissingValues.filterMap jsToNumber
      let replacementValue : Cell :=
        if method = "mode" || numericValues.length = 0 then calculateMode nonMissingValues
        else .num (calculateStatistic numericValues method)
      { t with rows := t.rows.map (fun r =>
          if isCellMissing (cellAt r ci) then setCellJs r ci replacementValue else r) }
    else t

/-- The full per-column loop, processing settings entries in order. -/
def processAllColumns (t : Table) (settings : List (String × ColumnSetting)) : Table :=
  settings.foldl (fun acc e => processColumn acc e.1 e.2) t

/-- JSON round trip of one cell (`JSON.parse(JSON.stringify(...))`):
`undefined` array elements serialize as `null`; strings, finite numbers,
booleans and `null` survive unchanged. -/
def jsonRoundTripCell : Cell → Cell
  | .undefV => .nullV
  | c => c

/-- The deep copy taken at the start of processing:
`{ headers: [...headers], rows: JSON.parse(JSON.stringify(rows)) }`. -/
def deepCopyTable (t : Table) : Table :=
  { headers := t.headers, rows := t.rows.map (fun r => r.map jsonRoundTripCell) }

/-- The slice of the store state the cleaning engine reads and writes. -/
structure StoreState where
  rawData : Option Table
  processedData : Option Table
  cleanedData : Option Table
  error : Option String
  isLoading : Bool
deriving DecidableEq

/-- Callback events delivered through the caller-supplied hooks. -/
inductive CallbackEvent where
  | onProgress (pct : ℤ)
  | onComplete
  | onError (msg : String)
deriving DecidableEq

/-- Source-table selection: `cleanedData || processedData`, falling back to
a fresh wrapper around `rawData` when both are absent. -/
def sourceTableOf (s : StoreState) : Option Table :=
  match s.cleanedData with
  | some t => some t
  | none =>
    match s.processedData with
    | some t => some t
    | none => s.rawData

/-- Model of `Math.round` (round half towards positive infinity). -/
def jsRound (q : ℚ) : ℤ := ⌊q + 1 / 2⌋

/-- The progress callbacks emitted by the per-column loop:
`Math.round(currentStep / totalSteps * 100)` after each of the `n` columns. -/
def progressEvents (n : Nat) : List CallbackEvent :=
  (List.range n).map (fun k => .onProgress (jsRound ((k + 1 : ℚ) / (n : ℚ) * 100)))

/-- The error message of the missing-source failure path. -/
def noDataMsg : String := "No data available for processing"

/-- The fallback error message of the catch handler. -/
def processFailedMsg : String := "Failed to process missing values"

/-- The `processMissingValues` store action (success and missing-source
paths): pick the source table, fail with an error when none is available,
otherwise process a deep copy and commit it to `cleanedData` in a single
state replacement.  The returned list is the sequence of callback events. -/
def processMissingValues (s : StoreState) (settings : List (String × ColumnSetting)) :
    StoreState × List CallbackEvent :=
  match sourceTableOf s with
  | none => ({ s with error := some noDataMsg }, [.onError noDataMsg])
  | some src =>
      let s1 : StoreState := { s with isLoading := true, error := none }
      let currentData := deepCopyTable src
      let result := processAllColumns currentData settings
      ({ s1 with cleanedData := some result, isLoading := false },
        progressEvents settings.length ++ [.onProgress 100, .onComplete])

/-- The catch handler at the engine boundary (an exception thrown during
processing, with message `errMsg`; the empty message stands for a falsy
`error.message`): record the error, stop loading, report through `onError`,
and leave `cleanedData` untouched. -/
def processMissingValuesCatch (s : StoreState) (errMsg : String) :
    StoreState × List CallbackEvent :=
  let m := if errMsg = "" then processFailedMsg else errMsg
  ({ s with error := some m, isLoading := false }, [.onError m])

/-- The row filter of `removeDuplicates`:
`rows.filter((_, index) => !indices.includes(index))` with headers kept. -/
def removeDuplicates (t : Table) (indices : List Nat) : Table :=
  { headers := t.headers,
    rows := (t.rows.enum.filter (fun p => !indices.contains p.1)).map Prod.snd }

/-- The row filter of `removeOutliers`, textually identical to the one in
`removeDuplicates`. -/
def removeOutliers (t : Table) (indices : List Nat) : Table :=
  { headers := t.headers,
    rows := (t.rows.enum.filter (fun p => !indices.contains p.1)).map Prod.snd }

/-- The head produced by inserting `x` into a list with head `o`. -/
def headMerge (le : α → α → Bool) : Option α → α → Option α
  | none, x => some x
  | some y, x => if le y x then some y else some x

/-- The first element of a list attaining the maximal value of `g`
(earlier elements win ties). -/
def firstMaxBy (g : α → Nat) (l : List α) : Option α :=
  l.foldl
    (fun acc x =>
      match acc with
      | none => some x
      | some y => if g x ≤ g y then some y else some x)
    none

theorem insertLe_perm (le : α → α → Bool) (x : α) (l : List α) :
    List.Perm (insertLe le x l) (x :: l) := by
  induction l with
  | nil => simp [insertLe]
  | cons y ys ih =>
    simp only [insertLe]
    split
    · exact (ih.cons y).trans (List.Perm.swap x y ys)
    · exact List.Perm.refl _

theorem foldl_insertLe_perm (le : α → α → Bool) :
    ∀ (l acc : List α), List.Perm (l.foldl (fun a x => insertLe le x a) acc) (acc ++ l) := by
  intro l
  induction l with
  | nil => intro acc; simp
  | cons x xs ih =>
    intro acc
    have h1 : List.Perm ((x :: xs).foldl (fun a x => insertLe le x a) acc)
        (insertLe le x acc ++ xs) := by simpa using ih (insertLe le x acc)
    have h2 : List.Perm (insertLe le x acc ++ xs) ((x :: acc) ++ xs) :=
      (insertLe_perm le x acc).append_right xs
    have h3 : List.Perm (acc ++ x :: xs) (x :: (acc ++ xs)) := List.perm_middle
    exact (h1.trans h2).trans h3.symm

theorem jsSortBy_perm (le : α → α → Bool) (l : List α) : List.Perm (jsSortBy le l) l := by
  simpa using foldl_insertLe_perm le l []

theorem insertLe_sorted_rat (x : ℚ) (l : List ℚ) (h : l.Sorted (· ≤ ·)) :
    (insertLe (fun a b => decide (a ≤ b)) x l).Sorted (· ≤ ·) := by
  induction l with
  | nil => simp [insertLe]
  | cons y ys ih =>
    rw [List.sorted_cons] at h
    simp only [insertLe]
    by_cases hyx : y ≤ x
    · rw [if_pos (by simpa using hyx)]
      rw [List.sorted_cons]
      refine ⟨?_, ih h.2⟩
      intro b hb
      rcases List.mem_cons.mp (((insertLe_perm _ x ys).mem_iff).mp hb) with hbx | hbys
      · exact hbx ▸ hyx
      · exact h.1 b hbys
    · rw [if_neg (by simpa using hyx)]
      rw [List.sorted_cons]
      refine ⟨?_, List.sorted_cons.mpr h⟩
      intro b hb
      have hxy : x ≤ y := le_of_lt (lt_of_not_le hyx)
      rcases List.mem_cons.mp hb with hby | hbys
      · exact hby ▸ hxy
      · exact hxy.trans (h.1 b hbys)

theorem jsSortBy_sorted_rat (l : List ℚ) :
    (jsSortBy (fun a b => decide (a ≤ b)) l).Sorted (· ≤ ·) := by
  have aux : ∀ (l acc : List ℚ), acc.Sorted (· ≤ ·) →
      (l.foldl (fun a x => insertLe (fun a b => decide (a ≤ b)) x a) acc).Sorted (· ≤ ·) := by
    intro l
    induction l with
    | nil => intro acc hacc; simpa using hacc
    | cons x xs ih =>
      intro acc hacc
      simpa using ih _ (insertLe_sorted_rat x acc hacc)
  simpa [jsSortBy] using aux l [] (by simp)

theorem head_insertLe (le : α → α → Bool) (x : α) (l : List α) :
    (insertLe le x l).head? = headMerge le l.head? x := by
  cases l with
  | nil => simp [insertLe, headMerge]
  | cons y ys =>
    simp only [insertLe, headMerge, List.head?_cons]
    split <;> simp

theorem head_foldl_insertLe (le : α → α → Bool) :
    ∀ (l acc : List α),
      (l.foldl (fun a x => insertLe le x a) acc).head? = l.foldl (headMerge le) acc.head? := by
  intro l
  induction l with
  | nil => intro acc; rfl
  | cons x xs ih =>
    intro acc
    simpa [head_insertLe] using ih (insertLe le x acc)

theorem jsSortBy_head_desc (g : α → Nat) (l : List α) :
    (jsSortBy (fun a b => decide (g b ≤ g a)) l).head? = firstMaxBy g l := by
  rw [jsSortBy, head_foldl_insertLe, firstMaxBy]
  have hstep : headMerge (fun a b => decide (g b ≤ g a))
      = fun (acc : Option α) (x : α) =>
          match acc with
          | none => some x
          | some y => if g x ≤ g y then some y else some x := by
    funext acc x
    cases acc with
    | none => rfl
    | some y => simp only [headMerge]; split <;> split <;> simp_all
  rw [hstep]
  rfl

theorem firstMaxBy_le (g : α → Nat) (l : List α) :
    ∀ m, firstMaxBy g l = some m → ∀ x ∈ l, g x ≤ g m := by
  have aux : ∀ (l : List α) (acc : Option α) (m : α),
      (l.foldl
        (fun acc x =>
          match acc with
          | none => some x
          | some y => if g x ≤ g y then some y else some x)
        acc) = some m →
      (∀ y, acc = some y → g y ≤ g m) ∧ ∀ x ∈ l, g x ≤ g m := by
    intro l
    induction l with
    | nil =>
      intro acc m hm
      refine ⟨fun y hy => ?_, by simp⟩
      simp only [List.foldl_nil] at hm
      rw [hy] at hm
      simp_all
    | cons x xs ih =>
      intro acc m hm
      simp only [List.foldl_cons] at hm
      have step := ih _ m hm
      constructor
      · intro y hy
        subst hy
        by_cases hxy : g x ≤ g y
        · exact step.1 y (by simp [hxy])
        · exact le_of_lt (Nat.lt_of_not_le hxy) |>.trans (step.1 x (by simp [hxy]))
      · intro z hz
        rcases List.mem_cons.mp hz with hzx | hzxs
        · subst hzx
          cases acc with
          | none => exact step.1 z rfl
          | some y =>
            by_cases hxy : g z ≤ g y
            · exact hxy.trans (step.1 y (by simp [hxy]))
            · exact step.1 z (by simp [hxy])
        · exact step.2 z hzxs
  intro m hm
  exact (aux l none m hm).2

theorem firstMaxBy_mem (g : α → Nat) (l : List α) :
    ∀ m, firstMaxBy g l = some m → m ∈ l := by
  have aux : ∀ (l : List α) (acc : Option α) (m : α),
      (l.foldl
        (fun acc x =>
          match acc with
          | none => some x
          | some y => if g x ≤ g y then some y else some x)
        acc) = some m →
      acc = some m ∨ m ∈ l := by
    intro l
    induction l with
    | nil =>
      intro acc m hm
      simp only [List.foldl_nil] at hm
      exact Or.inl hm
    | cons x xs ih =>
      intro acc m hm
      simp only [List.foldl_cons] at hm
      rcases ih _ m hm with hacc | hmem
      · cases acc with
        | none =>
          simp only at hacc
          injection hacc with hx
          exact Or.inr (hx ▸ List.mem_cons_self x xs)
        | some y =>
          simp only at hacc
          by_cases hxy : g x ≤ g y
          · rw [if_pos hxy] at hacc
            exact Or.inl hacc
          · rw [if_neg hxy] at hacc
            injection hacc with hx
            exact Or.inr (hx ▸ List.mem_cons_self x xs)
      · exact Or.inr (List.mem_cons_of_mem x hmem)
  intro m hm
  rcases aux l none m hm with h | h
  · exact absurd h (by simp)
  · exact h

theorem foldl_min_mem (xs : List ℚ) : ∀ (a : ℚ), xs.foldl min a ∈ a :: xs := by
  induction xs with
  | nil => intro a; simp
  | cons x xs ih =>
    intro a
    simp only [List.foldl_cons]
    rcases List.mem_cons.mp (ih (min a x)) with h1 | h1
    · rcases min_choice a x with hc | hc
      · exact List.mem_cons.mpr (Or.inl (h1.trans hc))
      · exact List.mem_cons.mpr (Or.inr (List.mem_cons.mpr (Or.inl (h1.trans hc))))
    · exact List.mem_cons.mpr (Or.inr (List.mem_cons.mpr (Or.inr h1)))

theorem foldl_min_le (xs : List ℚ) :
    ∀ (a : ℚ), xs.foldl min a ≤ a ∧ ∀ x ∈ xs, xs.foldl min a ≤ x := by
  induction xs with
  | nil => intro a; simp
  | cons x xs ih =>
    intro a
    have h := ih (min a x)
    refine ⟨h.1.trans (min_le_left a x), ?_⟩
    intro y hy
    rcases List.mem_cons.mp hy with hyx | hyxs
    · exact hyx ▸ (h.1.trans (min_le_right a x))
    · exact h.2 y hyxs

theorem foldl_max_mem (xs : List ℚ) : ∀ (a : ℚ), xs.foldl max a ∈ a :: xs := by
  induction xs with
  | nil => intro a; simp
  | cons x xs ih =>
    intro a
    simp only [List.foldl_cons]
    rcases List.mem_cons.mp (ih (max a x)) with h1 | h1
    · rcases max_choice a x with hc | hc
      · exact List.mem_cons.mpr (Or.inl (h1.trans hc))
      · exact List.mem_cons.mpr (Or.inr (List.mem_cons.mpr (Or.inl (h1.trans hc))))
    · exact List.mem_cons.mpr (Or.inr (List.mem_cons.mpr (Or.inr h1)))

theorem cellAt_setCellJs_self (row : List Cell) (i : Nat) (v : Cell) :
    cellAt (setCellJs row i v) i = v := by
  unfold setCellJs cellAt
  by_cases h : i < row.length
  · rw [if_pos h, List.getElem?_set_self h]
    rfl
  · rw [if_neg h]
    have hlen : row.length ≤ i := Nat.le_of_not_lt h
    have hl : (row ++ List.replicate (i - row.length) Cell.undefV).length = i := by
      simp
      omega
    rw [List.getElem?_append_right (by simp; omega), hl]
    simp

theorem cellAt_setCellJs_ne (row : List Cell) (i j : Nat) (v : Cell) (h : j ≠ i) :
    cellAt (setCellJs row i v) j = cellAt row j := by
  unfold setCellJs cellAt
  by_cases hi : i < row.length
  · rw [if_pos hi, List.getElem?_set_ne (Ne.symm h)]
  · rw [if_neg hi]
    have hlen : row.length ≤ i := Nat.le_of_not_lt hi
    by_cases hj : j < row.length
    · rw [List.getElem?_append, if_pos (by simp; omega)]
      rw [List.getElem?_append, if_pos hj]
    · have hrow : row[j]? = none := by
        rw [List.getElem?_eq_none]
        omega
      by_cases hji : j < i
      · rw [List.getElem?_append, if_pos (by simp; omega)]
        rw [List.getElem?_append, if_neg (by omega)]
        rw [List.getElem?_replicate, if_pos (by omega)]
        simp [hrow]
      · have h2 : ((row ++ List.replicate (i - row.length) Cell.undefV) ++ [v])[j]? = none := by
          rw [List.getElem?_eq_none]
          simp
          omega
        rw [h2, hrow]

theorem enumFrom_filter_map {α : Type u} (idx : List Nat) (d : α) :
    ∀ (rows : List α) (n : Nat),
      ((List.enumFrom n rows).filter (fun p => !idx.contains p.1)).map Prod.snd
        = ((List.range' n rows.length).filter (fun i => !idx.contains i)).map
            (fun i => (rows[i - n]?).getD d) := by
  intro rows
  induction rows with
  | nil => intro n; simp
  | cons r rest ih =>
    intro n
    have hmap : ∀ (l : List Nat), (∀ i ∈ l, n + 1 ≤ i) →
        l.map (fun i => ((r :: rest)[i - n]?).getD d)
          = l.map (fun i => (rest[i - (n + 1)]?).getD d) := by
      intro l hl
      apply List.map_congr_left
      intro i hi
      have hin : n + 1 ≤ i := hl i hi
      have : i - n = (i - (n + 1)) + 1 := by omega
      rw [this, List.getElem?_cons_succ]
    have hrange : ∀ i ∈ (List.range' (n + 1) rest.length).filter
        (fun i => !idx.contains i), n + 1 ≤ i := by
      intro i hi
      exact (List.mem_range'_1.mp (List.mem_of_mem_filter hi)).1
    simp only [List.enumFrom_cons, List.length_cons, List.range'_succ]
    by_cases hc : idx.contains n
    · rw [List.filter_cons_of_neg (by simp_all), List.filter_cons_of_neg (by simp_all)]
      rw [ih (n + 1), hmap _ hrange]
    · rw [List.filter_cons_of_pos (by simp_all), List.filter_cons_of_pos (by simp_all)]
      simp only [List.map_cons]
      rw [ih (n + 1), hmap _ hrange]
      simp

theorem foldl_max_le (xs : List ℚ) :
    ∀ (a : ℚ), a ≤ xs.foldl max a ∧ ∀ x ∈ xs, x ≤ xs.foldl max a := by
  induction xs with
  | nil => intro a; simp
  | cons x xs ih =>
    intro a
    have h := ih (max a x)
    refine ⟨(le_max_left a x).trans h.1, ?_⟩
    intro y hy
    rcases List.mem_cons.mp hy with hyx | hyxs
    · exact hyx ▸ ((le_max_right a x).trans h.1)
    · exact h.2 y hyxs

theorem processAllColumns_cons (t : Table) (e : String × ColumnSetting)
    (rest : List (String × ColumnSetting)) :
    processAllColumns t (e :: rest) = processAllColumns (processColumn t e.1 e.2) rest := rfl

theorem processColumn_headers (t : Table) (col : String) (cs : ColumnSetting) :
    (processColumn t col cs).headers = t.headers := by
  cases hix : indexOfAux t.headers col with
  | none => simp [processColumn, hix]
  | some ci =>
    simp only [processColumn, hix]
    split_ifs <;> rfl

theorem processColumn_length_of_not_drop (t : Table) (col : String) (cs : ColumnSetting)
    (h : cs.strategy ≠ "drop") :
    (processColumn t col cs).rows.length = t.rows.length := by
  cases hix : indexOfAux t.headers col with
  | none => simp [processColumn, hix]
  | some ci =>
    simp only [processColumn, hix]
    rw [if_neg h]
    split_ifs <;> simp

theorem cellAt2_map_update (t : Table) (f : List Cell → List Cell) (i j : Nat)
    (hf : ∀ r, cellAt (f r) j = cellAt r j) :
    cellAt2 { t with rows := t.rows.map f } i j = cellAt2 t i j := by
  unfold cellAt2
  rw [List.getElem?_map]
  cases hr : t.rows[i]? with
  | none => rfl
  | some r => simpa using hf r

theorem processColumn_frame (t : Table) (col : String) (cs : ColumnSetting) (j : Nat)
    (hnd : cs.strategy ≠ "drop") (hj : indexOfAux t.headers col ≠ some j) :
    ∀ i, cellAt2 (processColumn t col cs) i j = cellAt2 t i j := by
  intro i
  cases hix : indexOfAux t.headers col with
  | none => simp [processColumn, hix]
  | some ci =>
    have hcij : j ≠ ci := by
      intro hcj
      exact hj (hcj ▸ hix)
    simp only [processColumn, hix]
    rw [if_neg hnd]
    split_ifs <;>
      first
        | rfl
        | exact cellAt2_map_update t _ i j (fun r => by
            split
            · exact cellAt_setCellJs_ne r ci j _ hcij
            · rfl)

/-- C3: `isCellMissing` returns true exactly on `null`, `undefined`, the
empty string, whitespace-only strings, and strings whose trimmed lower-cased
form is one of the sentinels `na`, `n/a`, `null`, `-`, `nan`; every
non-string, non-null, non-undefined value — in particular the number `0` and
the boolean `false` — is classified as present. -/
theorem C3_missing_classifier : ∀ (c : Cell),
    (isCellMissing c = true ↔
      c = Cell.nullV ∨ c = Cell.undefV ∨
        (∃ s, c = Cell.str s ∧
          (jsTrim s = "" ∨ jsToLower (jsTrim s) ∈ missingSentinels))) ∧
    (∀ q, isCellMissing (Cell.num q) = false) ∧
    (∀ b, isCellMissing (Cell.boolV b) = false) := by
  intro c
  refine ⟨?_, fun q => rfl, fun b => rfl⟩
  cases c with
  | str s =>
    simp only [isCellMissing, Bool.or_eq_true, beq_iff_eq]
    constructor
    · rintro ((h | h) | h)
      · exact Or.inr (Or.inr ⟨s, rfl, Or.inl (by rw [h]; rfl)⟩)
      · exact Or.inr (Or.inr ⟨s, rfl, Or.inl h⟩)
      · exact Or.inr (Or.inr ⟨s, rfl, Or.inr (by simpa using h)⟩)
    · rintro (h | h | ⟨s2, hs, h⟩)
      · exact Cell.noConfusion h
      · exact Cell.noConfusion h
      · cases hs
        rcases h with h | h
        · exact Or.inl (Or.inr h)
        · exact Or.inr (by simpa using h)
  | nullV => simp [isCellMissing]
  | undefV => simp [isCellMissing]
  | num q => simp [isCellMissing]
  | boolV b => simp [isCellMissing]

/-- C5: for nonempty numeric input, `calculateStatistic` computes the
arithmetic mean for `"mean"`; the middle element (odd length) or the average
of the two middle elements (even length) of an ascending sorted permutation
for `"median"`; the minimum for `"min"`; the maximum for `"max"`; and `0`
for any unrecognized method, without error. -/
theorem C5_statistic_spec : ∀ (values : List ℚ), values ≠ [] →
    (calculateStatistic values "mean" * values.length = values.sum) ∧
    (∃ s : List ℚ, List.Perm s values ∧ s.Sorted (· ≤ ·) ∧
      calculateStatistic values "median"
        = if s.length % 2 = 1 then (s[s.length / 2]?).getD 0
          else ((s[s.length / 2 - 1]?).getD 0 + (s[s.length / 2]?).getD 0) / 2) ∧
    (calculateStatistic values "min" ∈ values ∧
      ∀ x ∈ values, calculateStatistic values "min" ≤ x) ∧
    (calculateStatistic values "max" ∈ values ∧
      ∀ x ∈ values, x ≤ calculateStatistic values "max") ∧
    (∀ m, m ≠ "mean" → m ≠ "median" → m ≠ "min" → m ≠ "max" →
      calculateStatistic values m = 0) := by
  intro values h
  have hlen : (values.length : ℚ) ≠ 0 := by simpa using h
  refine ⟨?_, ?_, ?_, ?_, ?_⟩
  · have hunf : calculateStatistic values "mean"
        = (values.foldl (fun a b => a + b) 0) / values.length := by
      simp [calculateStatistic]
    rw [hunf]
    rw [div_mul_cancel₀ _ hlen]
    rw [List.sum_eq_foldl]
  · refine ⟨jsSortBy (fun a b => decide (a ≤ b)) values,
      jsSortBy_perm _ values, jsSortBy_sorted_rat values, ?_⟩
    simp [calculateStatistic]
  · obtain ⟨x, xs, rfl⟩ := List.exists_cons_of_ne_nil h
    have hunf : calculateStatistic (x :: xs) "min" = xs.foldl min x := by
      simp [calculateStatistic]
    rw [hunf]
    refine ⟨foldl_min_mem xs x, ?_⟩
    intro y hy
    rcases List.mem_cons.mp hy with hyx | hyxs
    · exact hyx ▸ (foldl_min_le xs x).1
    · exact (foldl_min_le xs x).2 y hyxs
  · obtain ⟨x, xs, rfl⟩ := List.exists_cons_of_ne_nil h
    have hunf : calculateStatistic (x :: xs) "max" = xs.foldl max x := by
      simp [calculateStatistic]
    rw [hunf]
    refine ⟨foldl_max_mem xs x, ?_⟩
    intro y hy
    rcases List.mem_cons.mp hy with hyx | hyxs
    · exact hyx ▸ (foldl_max_le xs x).1
    · exact (foldl_max_le xs x).2 y hyxs
  · intro m h1 h2 h3 h4
    simp [calculateStatistic, h1, h2, h3, h4]

/-- Witness for C5 at the nonempty input `[3, 1, 2]`. -/
theorem C5_statistic_spec_witness :
    (([3, 1, 2] : List ℚ) ≠ []) ∧ calculateStatistic [3, 1, 2] "variance" = 0 :=
  ⟨by decide, (C5_statistic_spec [3, 1, 2] (by decide)).2.2.2.2 "variance"
    (by decide) (by decide) (by decide) (by decide)⟩

/-- C6: `processMissingValues` never overwrites the raw or processed source
tables; the only table field it writes is `cleanedData`, which receives the
result of processing a deep copy of the selected source snapshot.  In this
pure embedding tables are immutable values, so in-place mutation of the
source is unrepresentable; the statable content — the source fields survive
unchanged and the committed table is computed from a copy — is proved. -/
theorem C6_source_not_mutated : ∀ (s : StoreState) (settings : List (String × ColumnSetting)),
    (processMissingValues s settings).1.rawData = s.rawData ∧
    (processMissingValues s settings).1.processedData = s.processedData ∧
    (processMissingValues s settings).1.cleanedData
      = (match sourceTableOf s with
         | none => s.cleanedData
         | some src => some (processAllColumns (deepCopyTable src) settings)) := by
  intro s settings
  cases h : sourceTableOf s <;> simp [processMissingValues, h]

/-- C7: both failure paths of `processMissingValues` — no source table
available, and an exception caught at the engine boundary — report the error
through the `onError` callback and the store's `error` field and leave the
prior `cleanedData` unchanged. -/
theorem C7_failure_paths : ∀ (s : StoreState) (settings : List (String × ColumnSetting))
    (m : String),
    (sourceTableOf s = none →
      (processMissingValues s settings).1.cleanedData = s.cleanedData ∧
      (processMissingValues s settings).1.error = some noDataMsg ∧
      (processMissingValues s settings).2 = [CallbackEvent.onError noDataMsg]) ∧
    ((processMissingValuesCatch s m).1.cleanedData = s.cleanedData ∧
      (processMissingValuesCatch s m).1.error
        = some (if m = "" then processFailedMsg else m) ∧
      (processMissingValuesCatch s m).2
        = [CallbackEvent.onError (if m = "" then processFailedMsg else m)]) := by
  intro s settings m
  constructor
  · intro h
    simp [processMissingValues, h]
  · simp [processMissingValuesCatch]

/-- Witness for C7 at an empty store and at a concrete caught exception. -/
theorem C7_failure_paths_witness :
    ((processMissingValues ⟨none, none, none, none, false⟩ []).1.cleanedData
        = (⟨none, none, none, none, false⟩ : StoreState).cleanedData ∧
      (processMissingValues ⟨none, none, none, none, false⟩ []).1.error = some noDataMsg ∧
      (processMissingValues ⟨none, none, none, none, false⟩ []).2
        = [CallbackEvent.onError noDataMsg]) ∧
    ((processMissingValuesCatch ⟨none, none, some ⟨["a"], []⟩, none, false⟩ "boom").1.cleanedData
        = (⟨none, none, some ⟨["a"], []⟩, none, false⟩ : StoreState).cleanedData ∧
      (processMissingValuesCatch ⟨none, none, some ⟨["a"], []⟩, none, false⟩ "boom").1.error
        = some (if "boom" = "" then processFailedMsg else "boom") ∧
      (processMissingValuesCatch ⟨none, none, some ⟨["a"], []⟩, none, false⟩ "boom").2
        = [CallbackEvent.onError (if "boom" = "" then processFailedMsg else "boom")]) :=
  ⟨(C7_failure_paths ⟨none, none, none, none, false⟩ [] "x").1 (by decide),
   (C7_failure_paths ⟨none, none, some ⟨["a"], []⟩, none, false⟩ [] "boom").2⟩

/-- C8: a settings entry whose column is not among the working table's
headers is skipped as a silent no-op — the working table is unchanged and no
`onError` callback is ever emitted on the processing path. -/
theorem C8_column_not_found : ∀ (t : Table) (column : String) (cs : ColumnSetting),
    indexOfAux t.headers column = none →
    processColumn t column cs = t ∧
    ∀ (s : StoreState) (settings : List (String × ColumnSetting)) (src : Table)
      (m : String), sourceTableOf s = some src →
      CallbackEvent.onError m ∉ (processMissingValues s settings).2 := by
  intro t column cs h
  constructor
  · simp [processColumn, h]
  · intro s settings src m hsrc
    simp [processMissingValues, hsrc, progressEvents]

/-- Witness for C8: column `"b"` absent from headers `["a"]`, and a store
with a cleaned table emits no `onError`. -/
theorem C8_column_not_found_witness :
    (indexOfAux (⟨["a"], [[Cell.str "x"]]⟩ : Table).headers "b" = none) ∧
    processColumn ⟨["a"], [[Cell.str "x"]]⟩ "b" ⟨"drop", none⟩ = ⟨["a"], [[Cell.str "x"]]⟩ ∧
    CallbackEvent.onError "e"
      ∉ (processMissingValues ⟨none, none, some ⟨["a"], [[Cell.str "x"]]⟩, none, false⟩ []).2 :=
  ⟨by decide,
   (C8_column_not_found ⟨["a"], [[Cell.str "x"]]⟩ "b" ⟨"drop", none⟩ (by decide)).1,
   (C8_column_not_found ⟨["a"], [[Cell.str "x"]]⟩ "b" ⟨"drop", none⟩ (by decide)).2
     ⟨none, none, some ⟨["a"], [[Cell.str "x"]]⟩, none, false⟩ []
     ⟨["a"], [[Cell.str "x"]]⟩ "e" (by decide)⟩

/-- C9: the row-removal operations (`removeDuplicates` and `removeOutliers`)
agree, keep the headers, and return exactly the input rows whose 0-based
position in the input table is not in the index set, in original order; in
particular removing index 1 from a 3-row table keeps rows 0 and 2. -/
theorem C9_removeRows : ∀ (t : Table) (indices : List Nat),
    removeDuplicates t indices = removeOutliers t indices ∧
    (removeDuplicates t indices).headers = t.headers ∧
    (removeDuplicates t indices).rows
      = ((List.range t.rows.length).filter (fun i => !indices.contains i)).map
          (fun i => (t.rows[i]?).getD []) ∧
    removeDuplicates ⟨["h"], [[Cell.num 1], [Cell.num 2], [Cell.num 3]]⟩ [1]
      = ⟨["h"], [[Cell.num 1], [Cell.num 3]]⟩ := by
  intro t indices
  refine ⟨rfl, rfl, ?_, by decide⟩
  show (t.rows.enum.filter (fun p => !indices.contains p.1)).map Prod.snd = _
  rw [show t.rows.enum = List.enumFrom 0 t.rows from rfl,
    enumFrom_filter_map indices ([] : List Cell) t.rows 0,
    List.range_eq_range']
  simp only [Nat.sub_zero]

/-- Spec-version of the drop threshold, following the claim's words: the
setting's value interpreted as a number, defaulting to `50` only when it is
absent or non-numeric (so a value parsing to `0` yields threshold `0`). -/
def claimedDropThreshold (v : Option SettingValue) : ℚ :=
  match (match v with | some sv => jsToNumber (svToCell sv) | none => none) with
  | none => 50
  | some q => q

/-- C1 counterexample: with drop value `0` (numeric, so the claim's threshold
is `0`) on a table whose column is 50% missing, the claim predicts the table
is left unchanged (`p > t`), but the code's `Number(value) || 50` turns the
threshold into `50` and the missing row is dropped. -/
theorem C1_drop_counterexample :
    claimedDropThreshold (some (SettingValue.num 0)) = 0 ∧
    missingPct ⟨["a"], [[Cell.str ""], [Cell.str "x"]]⟩ 0 = 50 ∧
    claimedDropThreshold (some (SettingValue.num 0))
      < missingPct ⟨["a"], [[Cell.str ""], [Cell.str "x"]]⟩ 0 ∧
    processColumn ⟨["a"], [[Cell.str ""], [Cell.str "x"]]⟩ "a" ⟨"drop", some (SettingValue.num 0)⟩
      = ⟨["a"], [[Cell.str "x"]]⟩ ∧
    (⟨["a"], [[Cell.str "x"]]⟩ : Table) ≠ ⟨["a"], [[Cell.str ""], [Cell.str "x"]]⟩ := by
  have hp : missingPct ⟨["a"], [[Cell.str ""], [Cell.str "x"]]⟩ 0 = 50 := by
    rw [show missingPct ⟨["a"], [[Cell.str ""], [Cell.str "x"]]⟩ 0 = (1 : ℚ) / 2 * 100 from rfl]
    norm_num
  have hthr : dropThreshold (some (SettingValue.num 0)) = 50 := rfl
  refine ⟨rfl, hp, ?_, ?_, by decide⟩
  · rw [hp, show claimedDropThreshold (some (SettingValue.num 0)) = 0 from rfl]
    norm_num
  · rw [show processColumn ⟨["a"], [[Cell.str ""], [Cell.str "x"]]⟩ "a"
          ⟨"drop", some (SettingValue.num 0)⟩
        = if missingPct ⟨["a"], [[Cell.str ""], [Cell.str "x"]]⟩ 0
              ≤ dropThreshold (some (SettingValue.num 0))
          then { (⟨["a"], [[Cell.str ""], [Cell.str "x"]]⟩ : Table) with
                 rows := (⟨["a"], [[Cell.str ""], [Cell.str "x"]]⟩ : Table).rows.filter
                   (fun r => !isCellMissing (cellAt r 0)) }
          else ⟨["a"], [[Cell.str ""], [Cell.str "x"]]⟩ from rfl]
    rw [if_pos (by rw [hp, hthr])]
    decide

/-- C1 amended: for a `drop` entry on a resolved column, rows with missing
cells in that column are removed exactly when the missing percentage is at or
below the threshold `dropThreshold` (the value's numeric coercion when that
is a nonzero number, and `50` otherwise — also when the value parses to `0`,
because of `Number(value) || 50`); above the threshold the working table is
left unchanged. -/
theorem C1_drop_amended : ∀ (t : Table) (column : String) (cs : ColumnSetting) (ci : Nat),
    cs.strategy = "drop" → indexOfAux t.headers column = some ci →
    (missingPct t ci ≤ dropThreshold cs.value →
      processColumn t column cs
        = { t with rows := t.rows.filter (fun r => !isCellMissing (cellAt r ci)) }) ∧
    (dropThreshold cs.value < missingPct t ci → processColumn t column cs = t) := by
  intro t column cs ci hstrat hidx
  have hunf : processColumn t column cs
      = if missingPct t ci ≤ dropThreshold cs.value
        then { t with rows := t.rows.filter (fun r => !isCellMissing (cellAt r ci)) }
        else t := by
    simp [processColumn, hidx, hstrat]
  constructor
  · intro hle
    rw [hunf, if_pos hle]
  · intro hlt
    rw [hunf, if_neg (not_le.mpr hlt)]

/-- Witness for C1 amended at a concrete one-row table and drop setting. -/
theorem C1_drop_amended_witness :
    ((⟨"drop", none⟩ : ColumnSetting).strategy = "drop") ∧
    (indexOfAux (⟨["a"], [[Cell.str "x"]]⟩ : Table).headers "a" = some 0) ∧
    ((missingPct ⟨["a"], [[Cell.str "x"]]⟩ 0
        ≤ dropThreshold (⟨"drop", none⟩ : ColumnSetting).value →
      processColumn ⟨["a"], [[Cell.str "x"]]⟩ "a" ⟨"drop", none⟩
        = { (⟨["a"], [[Cell.str "x"]]⟩ : Table) with
            rows := (⟨["a"], [[Cell.str "x"]]⟩ : Table).rows.filter
              (fun r => !isCellMissing (cellAt r 0)) }) ∧
     (dropThreshold (⟨"drop", none⟩ : ColumnSetting).value
        < missingPct ⟨["a"], [[Cell.str "x"]]⟩ 0 →
      processColumn ⟨["a"], [[Cell.str "x"]]⟩ "a" ⟨"drop", none⟩
        = ⟨["a"], [[Cell.str "x"]]⟩)) :=
  ⟨rfl, by decide,
   C1_drop_amended ⟨["a"], [[Cell.str "x"]]⟩ "a" ⟨"drop", none⟩ 0 rfl (by decide)⟩

/-- C2 counterexample: a `fill-value` entry with the value absent fills a
missing cell with the number `0` — because `Number("") = 0`, not `NaN` — and
not with the empty string the claim predicts. -/
theorem C2_fill_counterexample :
    processColumn ⟨["a"], [[Cell.nullV]]⟩ "a" ⟨"fill-value", none⟩
      = ⟨["a"], [[Cell.num 0]]⟩ ∧
    fillValue none = Cell.num 0 ∧
    Cell.num 0 ≠ Cell.str "" := by
  refine ⟨by decide, rfl, by decide⟩

/-- C2 amended: a `fill-value` entry on a resolved column replaces exactly
the missing cells of that column with `fillValue`: the setting's value
coerced to a number when it numerically parses and kept as given otherwise;
an absent value defaults to the empty string, which coerces to the number
`0`.  In particular `"5"` fills the number `5` and `"abc"` fills the string
`"abc"`; all other cells keep their values. -/
theorem C2_fill_value_amended : ∀ (t : Table) (column : String) (cs : ColumnSetting) (ci : Nat),
    cs.strategy = "fill-value" → indexOfAux t.headers column = some ci →
    ((processColumn t column cs).headers = t.headers ∧
      (processColumn t column cs).rows.length = t.rows.length ∧
      (∀ i, i < t.rows.length → ∀ j,
        cellAt2 (processColumn t column cs) i j
          = if j = ci ∧ isCellMissing (cellAt2 t i ci) = true then fillValue cs.value
            else cellAt2 t i j)) ∧
    fillValue none = Cell.num 0 ∧
    fillValue (some (SettingValue.str "5")) = Cell.num 5 ∧
    fillValue (some (SettingValue.str "abc")) = Cell.str "abc" ∧
    (∀ v : SettingValue, fillValue (some v)
      = match jsToNumber (svToCell v) with
        | some q => Cell.num q
        | none => svToCell v) := by
  intro t column cs ci hstrat hidx
  have hproc : processColumn t column cs
      = { t with rows := t.rows.map (fun r =>
            if isCellMissing (cellAt r ci) then setCellJs r ci (fillValue cs.value) else r) } := by
    simp [processColumn, hidx, hstrat]
  refine ⟨⟨by rw [hproc], by rw [hproc]; simp, ?_⟩, rfl, by decide, by decide, ?_⟩
  · intro i hi j
    obtain ⟨r, hr⟩ : ∃ r, t.rows[i]? = some r := ⟨_, List.getElem?_eq_getElem hi⟩
    have hcol : cellAt2 t i ci = cellAt r ci := by
      simp [cellAt2, hr]
    have hcell : ∀ k, cellAt2 t i k = cellAt r k := by
      intro k
      simp [cellAt2, hr]
    have hmap : cellAt2 { t with rows := t.rows.map (fun r2 =>
          if isCellMissing (cellAt r2 ci) = true then setCellJs r2 ci (fillValue cs.value)
          else r2) } i j
        = cellAt (if isCellMissing (cellAt r ci) = true
            then setCellJs r ci (fillValue cs.value) else r) j := by
      unfold cellAt2
      rw [List.getElem?_map, hr]
      rfl
    rw [hproc, hmap, hcol, hcell j]
    by_cases hmiss : isCellMissing (cellAt r ci) = true
    · rw [if_pos hmiss]
      by_cases hj : j = ci
      · subst hj
        rw [cellAt_setCellJs_self, if_pos ⟨rfl, hmiss⟩]
      · rw [cellAt_setCellJs_ne r ci j _ hj, if_neg (fun hc => hj hc.1)]
    · rw [if_neg hmiss, if_neg (fun hc => hmiss hc.2)]
  · intro v
    cases v <;> rfl

/-- Witness for C2 amended at a one-cell table with an absent fill value. -/
theorem C2_fill_value_amended_witness :
    ((⟨"fill-value", none⟩ : ColumnSetting).strategy = "fill-value") ∧
    (indexOfAux (⟨["a"], [[Cell.nullV]]⟩ : Table).headers "a" = some 0) ∧
    fillValue none = Cell.num 0 :=
  ⟨rfl, by decide,
   (C2_fill_value_amended ⟨["a"], [[Cell.nullV]]⟩ "a" ⟨"fill-value", none⟩ 0
     rfl (by decide)).2.1⟩

/-- C10: a settings map containing only `fill-value` and `fill-method`
entries preserves the working table's headers and row count, and every cell
whose column position is not targeted by any entry is unchanged — each row
is copied and only the resolved position of a targeted column is ever
written. -/
theorem C10_fill_frame : ∀ (settings : List (String × ColumnSetting)) (t : Table),
    (∀ e ∈ settings, e.2.strategy = "fill-value" ∨ e.2.strategy = "fill-method") →
    (processAllColumns t settings).headers = t.headers ∧
    (processAllColumns t settings).rows.length = t.rows.length ∧
    ∀ j, (∀ e ∈ settings, indexOfAux t.headers e.1 ≠ some j) →
      ∀ i, cellAt2 (processAllColumns t settings) i j = cellAt2 t i j := by
  intro settings
  induction settings with
  | nil => exact fun t hs => ⟨rfl, rfl, fun j hj i => rfl⟩
  | cons e rest ih =>
    intro t hs
    have hestrat := hs e (List.mem_cons_self e rest)
    have hnd : e.2.strategy ≠ "drop" := by
      rcases hestrat with h | h <;> rw [h] <;> decide
    have hh := processColumn_headers t e.1 e.2
    have hlen := processColumn_length_of_not_drop t e.1 e.2 hnd
    have hrest := ih (processColumn t e.1 e.2) (fun x hx => hs x (List.mem_cons_of_mem e hx))
    refine ⟨?_, ?_, ?_⟩
    · rw [processAllColumns_cons, hrest.1, hh]
    · rw [processAllColumns_cons, hrest.2.1, hlen]
    · intro j hj i
      rw [processAllColumns_cons]
      have hj1 : indexOfAux t.headers e.1 ≠ some j := hj e (List.mem_cons_self e rest)
      have hjrest : ∀ x ∈ rest,
          indexOfAux (processColumn t e.1 e.2).headers x.1 ≠ some j := by
        intro x hx
        rw [hh]
        exact hj x (List.mem_cons_of_mem e hx)
      rw [hrest.2.2 j hjrest i, processColumn_frame t e.1 e.2 j hnd hj1 i]

/-- Witness for C10 at a one-cell table and one fill entry on an absent
column. -/
theorem C10_fill_frame_witness :
    (∀ e ∈ [("b", (⟨"fill-value", none⟩ : ColumnSetting))],
      e.2.strategy = "fill-value" ∨ e.2.strategy = "fill-method") ∧
    (processAllColumns ⟨["a"], [[Cell.nullV]]⟩ [("b", ⟨"fill-value", none⟩)]).rows.length
      = (⟨["a"], [[Cell.nullV]]⟩ : Table).rows.length :=
  ⟨by decide,
   (C10_fill_frame [("b", ⟨"fill-value", none⟩)] ⟨["a"], [[Cell.nullV]]⟩ (by decide)).2.1⟩

/-- Spec-version of `calculateMode`, following the claim's words for the
tie-break: the winning entry is the first entry with maximal count in the
frequency table's first-encountered insertion order (no reordering of
integer-like keys), with the same numeric conversion of the winner. -/
def modeByInsertionOrder (values : List Cell) : Cell :=
  match firstMaxBy (fun p => p.2) (freqTable values) with
  | none => .str ""
  | some (k, _) =>
      match parseJsNumber k with
      | some q => .num q
      | none => .str k

/-- C4 counterexample: on `["3", "2"]` both values occur once; the first
inserted key is `"3"`, so the claim's insertion-order tie-break predicts the
number `3`, but `Object.entries` enumerates the integer-like keys in
ascending numeric order, so the code returns the number `2`. -/
theorem C4_mode_counterexample :
    calculateMode [Cell.str "3", Cell.str "2"] = Cell.num 2 ∧
    modeByInsertionOrder [Cell.str "3", Cell.str "2"] = Cell.num 3 ∧
    Cell.num 2 ≠ Cell.num 3 := by
  refine ⟨by decide, by decide, by decide⟩

/-- C4 amended: `calculateMode` returns the value of the first entry with
maximal count in the frequency table's enumeration order — integer-like keys
first in ascending numeric order, then the remaining keys in insertion
order — converted to a number when its key numerically parses; the empty
list yields the empty string; the winning count is maximal over all entries.
In particular the claim's two examples hold. -/
theorem C4_mode_amended : ∀ (values : List Cell),
    (calculateMode values
      = (match firstMaxBy (fun p => p.2) (objectEntries (freqTable values)) with
         | none => Cell.str ""
         | some (k, _) =>
             match parseJsNumber k with
             | some q => Cell.num q
             | none => Cell.str k)) ∧
    (∀ e ∈ objectEntries (freqTable values),
      ∀ m ∈ firstMaxBy (fun p => p.2) (objectEntries (freqTable values)), e.2 ≤ m.2) ∧
    calculateMode [] = Cell.str "" ∧
    calculateMode [Cell.str "a", Cell.str "b", Cell.str "a"] = Cell.str "a" ∧
    calculateMode [Cell.str "2", Cell.str "2", Cell.str "3"] = Cell.num 2 := by
  intro values
  refine ⟨?_, ?_, by decide, by decide, by decide⟩
  · show (match (jsSortBy (fun a b => decide (b.2 ≤ a.2))
        (objectEntries (freqTable values))).head? with
      | none => Cell.str ""
      | some (k, _) =>
          match parseJsNumber k with
          | some q => Cell.num q
          | none => Cell.str k) = _
    rw [jsSortBy_head_desc (fun p : String × Nat => p.2)]
  · intro e he m hm
    exact firstMaxBy_le (fun p => p.2) _ m hm e he

/-- Witness for C4 amended at the singleton input `["a"]`. -/
theorem C4_mode_amended_witness :
    (("a", 1) ∈ objectEntries (freqTable [Cell.str "a"])) ∧
    (("a", 1) ∈ firstMaxBy (fun p : String × Nat => p.2)
      (objectEntries (freqTable [Cell.str "a"]))) ∧
    (("a", 1) : String × Nat).2 ≤ (("a", 1) : String × Nat).2 :=
  ⟨by decide, by decide,
   (C4_mode_amended [Cell.str "a"]).2.1 ("a", 1) (by decide) ("a", 1) (by decide)⟩
